import Mathlib

/-!
# Sensor calibration helpers (`to_esphome/calibration.h`)

A shallow embedding of the four functions of `calibration.h`
(`segmented_linear`, `correlation_coefficient`, `linear_fit`,
`calibrated_humidity`) and a verification of their specification.

Modelling decisions.

* `float` is modelled by an arbitrary linearly ordered field `α` (exact
  arithmetic); theorems that need a square root or the topology of the real
  line are stated over `ℝ`.  The definitions are generic, hence executable on
  `ℚ`.  Rounding, overflow and underflow of binary floating point are not
  modelled; a NaN query is modelled only for the checked `segmented_linear`,
  which assumes no law of the comparisons.
* `std::vector<std::vector<float>> mapping` is a list of rows; a row
  `{input, output}` is a pair, `mapping[i][0]` is `input mapping i` and
  `mapping[i][1]` is `output mapping i`.
* The C++ code indexes without bounds checks.  The exact-arithmetic model is
  total: an index outside the table reads the row `(0, 0)`.  Every theorem
  about `segmented_linear` assumes at least two rows, and then every index the
  function reads (`0`, `1`, `size-2`, `size-1`, and `i-1`, `i` for
  `1 ≤ i < size`) is inside the table.
* `sqrt` from the C library is a parameter of `correlation_coefficient`; over
  the reals it is instantiated by `Real.sqrt`.
* Claims about faults use a second, checked embedding (`cell`,
  `segmented_linear_checked`, `linear_fit_checked`): reads are partial,
  division is guarded, and a run ends in a value or in a `Fault`.  On tables
  that meet the contract it returns the value of the exact-arithmetic
  embedding (`segmented_linear_checked_completes`).
-/

namespace Calibration

variable {α : Type} [LinearOrderedField α]

/-! ## The breakpoint table -/

/-- Cell `mapping[i][0]`: the input of breakpoint `i`. -/
def input (mapping : List (α × α)) (i : Nat) : α :=
  (mapping.getD i (0, 0)).1

/-- Cell `mapping[i][1]`: the output of breakpoint `i`. -/
def output (mapping : List (α × α)) (i : Nat) : α :=
  (mapping.getD i (0, 0)).2

/-! ## `segmented_linear` -/

/-- The `for` loop of the "Within mapping" branch (lines 33-46), entered at
index `i` with the current value `res` of the result variable.  The loop
leaves `res` untouched until the first `i` with `x <= in_b`, where it assigns
the interpolated value and breaks.  The first argument bounds the number of
iterations still allowed; `segmented_linear` passes `mapping.size()`, which
the loop `i = 1, ..., size - 1` never exhausts. -/
def within_mapping (mapping : List (α × α)) (x res : α) : Nat → Nat → α
  | 0, _ => res
  | fuel + 1, i =>
    if i < mapping.length then
      let in_a := input mapping (i - 1)
      let out_a := output mapping (i - 1)
      let in_b := input mapping i
      let out_b := output mapping i
      if x ≤ in_b then
        let in_diff := in_b - in_a
        let out_diff := out_b - out_a
        let diff := x - in_a
        let ratio := diff / in_diff
        out_a + (ratio * out_diff)
      else
        within_mapping mapping x res fuel (i + 1)
    else
      res

/-- The function `segmented_linear(mapping, x)` (lines 6-49). -/
def segmented_linear (mapping : List (α × α)) (x : α) : α :=
  let res := x
  if x < input mapping 0 then
    -- Less than mapping
    let in_a := input mapping 0
    let out_a := output mapping 0
    let in_b := input mapping 1
    let out_b := output mapping 1
    let in_diff := in_b - in_a
    let out_diff := out_b - out_a
    let diff := in_a - x
    let ratio := diff / in_diff
    out_a - (ratio * out_diff)
  else if x > input mapping (mapping.length - 1) then
    -- More than mapping
    let i := mapping.length - 1
    let in_a := input mapping (i - 1)
    let out_a := output mapping (i - 1)
    let in_b := input mapping i
    let out_b := output mapping i
    let in_diff := in_b - in_a
    let out_diff := out_b - out_a
    let diff := x - in_b
    let ratio := diff / in_diff
    out_b + (ratio * out_diff)
  else
    -- Within mapping
    within_mapping mapping x res mapping.length 1

/-- The value the loop assigns when it breaks at index `i`: the chord through
breakpoints `i - 1` and `i`, evaluated at `x`. -/
def segment (mapping : List (α × α)) (i : Nat) (x : α) : α :=
  output mapping (i - 1)
    + ((x - input mapping (i - 1)) / (input mapping i - input mapping (i - 1)))
      * (output mapping i - output mapping (i - 1))

/-! ## `correlation_coefficient`, `linear_fit`, `calibrated_humidity` -/

/-- The function `correlation_coefficient(x1, y1, x2, y2)` (lines 51-64);
`pow(e, 2)` is `e ^ 2`. -/
def correlation_coefficient (sqrt : α → α) (x1 y1 x2 y2 : α) : α :=
  let avg_x := (x1 + x2) / 2
  let avg_y := (y1 + y2) / 2
  let numerator := (x1 - avg_x) * (y1 - avg_y) + (x2 - avg_x) * (y2 - avg_y)
  let denominator :=
    sqrt ((x1 - avg_x) ^ 2 + (x2 - avg_x) ^ 2) *
    sqrt ((y1 - avg_y) ^ 2 + (y2 - avg_y) ^ 2)
  numerator / denominator

/-- The function `linear_fit(x1, y1, x2, y2)` (lines 66-71); the result is
the pair `(slope, intercept)`. -/
def linear_fit (sqrt : α → α) (x1 y1 x2 y2 : α) : α × α :=
  let correlation_coefficient_value := correlation_coefficient sqrt x1 y1 x2 y2
  let slope := correlation_coefficient_value * (y2 - y1) / (x2 - x1)
  let intercept := y1 - slope * x1
  (slope, intercept)

/-- The function `calibrated_humidity(temp, hum, expected1, expected2,
measured1, measured2)` (lines 73-89). -/
def calibrated_humidity (sqrt : α → α) (temp hum : α)
    (expected1 expected2 measured1 measured2 : α → α) : α :=
  let pair := linear_fit sqrt (measured1 temp) (expected1 temp) (measured2 temp) (expected2 temp)
  let slope := pair.1
  let intercept := pair.2
  (slope * hum) + intercept

/-! ## Table contracts -/

/-- The inputs of the table are strictly ascending. -/
def ascending (mapping : List (α × α)) : Prop :=
  ∀ i, i < mapping.length - 1 → input mapping i < input mapping (i + 1)

instance (mapping : List (α × α)) : Decidable (ascending mapping) := by
  unfold ascending; infer_instance

/-- The outputs of the table are non-decreasing. -/
def outputs_nondecreasing (mapping : List (α × α)) : Prop :=
  ∀ i, i < mapping.length - 1 → output mapping i ≤ output mapping (i + 1)

instance (mapping : List (α × α)) : Decidable (outputs_nondecreasing mapping) := by
  unfold outputs_nondecreasing; infer_instance

/-- The outputs of the table are non-increasing. -/
def outputs_nonincreasing (mapping : List (α × α)) : Prop :=
  ∀ i, i < mapping.length - 1 → output mapping (i + 1) ≤ output mapping i

instance (mapping : List (α × α)) : Decidable (outputs_nonincreasing mapping) := by
  unfold outputs_nonincreasing; infer_instance

/-! ## The checked embedding: partial indexing and guarded division

The same four functions once more, with the two ways the C++ code can go
wrong made explicit: a vector index outside `0 .. size-1` and a division by
zero give a `Fault`.  Rows are lists of cells here, so a row may be too short,
and indices computed in `int` (`i - 1`, `size - 1`) are integers that may be
negative.

The checked `segmented_linear` is written over an arbitrary type `β` of
numbers that only carries the operations the code uses (`<`, `<=`, `+`, `-`,
`*`, `/`, comparison with zero).  No law is assumed of them: in particular
`<` and `<=` need not be total, so a number that compares false with
everything, as a NaN does, is an admissible query. -/

/-- What can go wrong in the checked embedding. -/
inductive Fault where
  | out_of_bounds
  | zero_divisor
  deriving DecidableEq

/-- Guarded division: a zero divisor is an error. -/
def checked_div {β : Type} [Zero β] [DecidableEq β] [Div β] (a b : β) : Except Fault β :=
  if b = 0 then .error .zero_divisor else .ok (a / b)

/-- Checked read of `mapping[i][j]`: the row index `i` and the cell index `j`
must both be inside their vector. -/
def cell {β : Type} (mapping : List (List β)) (i : Int) (j : Nat) : Except Fault β :=
  if 0 ≤ i ∧ i < mapping.length then
    match mapping[i.toNat]? with
    | some row =>
      match row[j]? with
      | some v => .ok v
      | none => .error .out_of_bounds
    | none => .error .out_of_bounds
  else
    .error .out_of_bounds

/-- The table of the checked embedding whose rows are the pairs of `pairs`:
every row is a two-cell vector `{input, output}`. -/
def rows (pairs : List (α × α)) : List (List α) :=
  pairs.map (fun p => [p.1, p.2])

/-- The `for` loop of `segmented_linear` (lines 33-46) with checked reads and
guarded division; the four cells are read on every iteration, before the
test `x <= in_b`. -/
def within_mapping_checked {β : Type} [LE β] [∀ a b : β, Decidable (a ≤ b)]
    [Add β] [Sub β] [Mul β] [Div β] [Zero β] [DecidableEq β]
    (mapping : List (List β)) (x res : β) :
    Nat → Nat → Except Fault β
  | 0, _ => .ok res
  | fuel + 1, i =>
    if i < mapping.length then do
      let in_a ← cell mapping ((i : Int) - 1) 0
      let out_a ← cell mapping ((i : Int) - 1) 1
      let in_b ← cell mapping (i : Int) 0
      let out_b ← cell mapping (i : Int) 1
      if x ≤ in_b then do
        let in_diff := in_b - in_a
        let out_diff := out_b - out_a
        let diff := x - in_a
        let ratio ← checked_div diff in_diff
        pure (out_a + (ratio * out_diff))
      else
        within_mapping_checked mapping x res fuel (i + 1)
    else
      pure res

/-- The function `segmented_linear(mapping, x)` (lines 6-49) with checked
reads and guarded division, in the order the code performs them. -/
def segmented_linear_checked {β : Type} [LT β] [∀ a b : β, Decidable (a < b)]
    [LE β] [∀ a b : β, Decidable (a ≤ b)]
    [Add β] [Sub β] [Mul β] [Div β] [Zero β] [DecidableEq β]
    (mapping : List (List β)) (x : β) : Except Fault β := do
  let res := x
  let first ← cell mapping 0 0
  if x < first then do
    -- Less than mapping
    let in_a ← cell mapping 0 0
    let out_a ← cell mapping 0 1
    let in_b ← cell mapping 1 0
    let out_b ← cell mapping 1 1
    let in_diff := in_b - in_a
    let out_diff := out_b - out_a
    let diff := in_a - x
    let ratio ← checked_div diff in_diff
    pure (out_a - (ratio * out_diff))
  else do
    let last ← cell mapping ((mapping.length : Int) - 1) 0
    if x > last then do
      -- More than mapping
      let i : Int := (mapping.length : Int) - 1
      let in_a ← cell mapping (i - 1) 0
      let out_a ← cell mapping (i - 1) 1
      let in_b ← cell mapping i 0
      let out_b ← cell mapping i 1
      let in_diff := in_b - in_a
      let out_diff := out_b - out_a
      let diff := x - in_b
      let ratio ← checked_div diff in_diff
      pure (out_b + (ratio * out_diff))
    else
      -- Within mapping
      within_mapping_checked mapping x res mapping.length 1

/-- A number of the C++ arithmetic that may be a NaN.  It serves as a query
type for the checked `segmented_linear` on which the comparisons are not
total: every comparison with `nan` is false and every operation on `nan`
gives `nan`.  Infinities are not modelled; a division by zero, which the
guarded division never performs, gives `nan`. -/
inductive NumberOrNaN where
  | number (q : ℚ)
  | nan
  deriving DecidableEq

namespace NumberOrNaN

/-- Lifts a binary operation on numbers, with `nan` absorbing. -/
def lift (f : ℚ → ℚ → ℚ) : NumberOrNaN → NumberOrNaN → NumberOrNaN
  | number p, number q => number (f p q)
  | _, _ => nan

/-- The comparison `a < b`: false when either side is `nan`. -/
def lt : NumberOrNaN → NumberOrNaN → Prop
  | number p, number q => p < q
  | _, _ => False

/-- The comparison `a <= b`: false when either side is `nan`. -/
def le : NumberOrNaN → NumberOrNaN → Prop
  | number p, number q => p ≤ q
  | _, _ => False

instance : LT NumberOrNaN := ⟨lt⟩

instance : LE NumberOrNaN := ⟨le⟩

instance (a b : NumberOrNaN) : Decidable (a < b) :=
  match a, b with
  | number p, number q => inferInstanceAs (Decidable (p < q))
  | number _, nan => isFalse (fun h => h)
  | nan, _ => isFalse (fun h => h)

instance (a b : NumberOrNaN) : Decidable (a ≤ b) :=
  match a, b with
  | number p, number q => inferInstanceAs (Decidable (p ≤ q))
  | number _, nan => isFalse (fun h => h)
  | nan, _ => isFalse (fun h => h)

instance : Zero NumberOrNaN := ⟨number 0⟩

instance : Add NumberOrNaN := ⟨lift (fun p q => p + q)⟩

instance : Sub NumberOrNaN := ⟨lift (fun p q => p - q)⟩

instance : Mul NumberOrNaN := ⟨lift (fun p q => p * q)⟩

instance : Div NumberOrNaN :=
  ⟨fun a b => if b = number 0 then nan else lift (fun p q => p / q) a b⟩

end NumberOrNaN

/-- The divisor of the last division of `correlation_coefficient`
(lines 55-62). -/
def correlation_denominator (sqrt : α → α) (x1 y1 x2 y2 : α) : α :=
  let avg_x := (x1 + x2) / 2
  let avg_y := (y1 + y2) / 2
  sqrt ((x1 - avg_x) ^ 2 + (x2 - avg_x) ^ 2) *
  sqrt ((y1 - avg_y) ^ 2 + (y2 - avg_y) ^ 2)

/-- The function `correlation_coefficient` (lines 51-64) with guarded
division. -/
def correlation_coefficient_checked (sqrt : α → α) (x1 y1 x2 y2 : α) : Except Fault α := do
  let avg_x ← checked_div (x1 + x2) 2
  let avg_y ← checked_div (y1 + y2) 2
  let numerator := (x1 - avg_x) * (y1 - avg_y) + (x2 - avg_x) * (y2 - avg_y)
  let denominator :=
    sqrt ((x1 - avg_x) ^ 2 + (x2 - avg_x) ^ 2) *
    sqrt ((y1 - avg_y) ^ 2 + (y2 - avg_y) ^ 2)
  checked_div numerator denominator

/-- The function `linear_fit` (lines 66-71) with guarded division. -/
def linear_fit_checked (sqrt : α → α) (x1 y1 x2 y2 : α) : Except Fault (α × α) := do
  let correlation_coefficient_value ← correlation_coefficient_checked sqrt x1 y1 x2 y2
  let slope ← checked_div (correlation_coefficient_value * (y2 - y1)) (x2 - x1)
  let intercept := y1 - slope * x1
  pure (slope, intercept)

/-- The direct two-point slope `(y2 - y1) / (x2 - x1)` the specification
compares `linear_fit` with, with guarded division.  It follows the
specification's formula; the code has no such function. -/
def direct_slope_checked (x1 y1 x2 y2 : α) : Except Fault α :=
  checked_div (y2 - y1) (x2 - x1)

/-! ## Auxiliary lemmas -/

/-- The loop breaks at `k` when `k` is the first index from `i` on with
`x ≤ input k`, provided enough iterations are allowed. -/
theorem within_mapping_break (mapping : List (α × α)) (x res : α) (k : Nat)
    (hk : k < mapping.length) (hxk : x ≤ input mapping k) :
    ∀ (fuel i : Nat), i ≤ k → k - i < fuel →
      (∀ j, i ≤ j → j < k → ¬ x ≤ input mapping j) →
      within_mapping mapping x res fuel i = segment mapping k x := by
  intro fuel
  induction fuel with
  | zero => intro i _ hf; omega
  | succ fuel ih =>
    intro i hik hf hfirst
    have hi : i < mapping.length := lt_of_le_of_lt hik hk
    rcases Nat.eq_or_lt_of_le hik with rfl | hlt
    · simp [within_mapping, hi, hxk, segment]
    · have hnot : ¬ x ≤ input mapping i := hfirst i le_rfl hlt
      simp only [within_mapping, hi, hnot, if_true, if_false]
      exact ih (i + 1) hlt (by omega) (fun j hj hjk => hfirst j (by omega) hjk)

/-- The iteration bound is never what stops the loop: once it covers the
remaining indices `i, ..., size - 1`, allowing one more iteration changes
nothing. -/
theorem within_mapping_fuel (mapping : List (α × α)) (x res : α) :
    ∀ (fuel i : Nat), mapping.length ≤ fuel + i →
      within_mapping mapping x res (fuel + 1) i = within_mapping mapping x res fuel i := by
  intro fuel
  induction fuel with
  | zero =>
    intro i hi
    have hnot : ¬ i < mapping.length := by omega
    simp [within_mapping, hnot]
  | succ fuel ih =>
    intro i hi
    have hrec := ih (i + 1) (by omega)
    simp only [within_mapping] at hrec ⊢
    rw [hrec]

/-- Strictly ascending inputs are strictly monotone in the row index. -/
theorem ascending_lt (mapping : List (α × α)) (hasc : ascending mapping)
    (i j : Nat) (hij : i < j) (hj : j < mapping.length) :
    input mapping i < input mapping j := by
  induction j with
  | zero => omega
  | succ j ih =>
    have hstep : input mapping j < input mapping (j + 1) := hasc j (by omega)
    rcases Nat.eq_or_lt_of_le (Nat.lt_succ_iff.mp hij) with rfl | hlt
    · exact hstep
    · exact lt_trans (ih hlt (by omega)) hstep

/-- Weak form of `ascending_lt`. -/
theorem ascending_le (mapping : List (α × α)) (hasc : ascending mapping)
    (i j : Nat) (hij : i ≤ j) (hj : j < mapping.length) :
    input mapping i ≤ input mapping j := by
  rcases Nat.eq_or_lt_of_le hij with rfl | hlt
  · exact le_rfl
  · exact le_of_lt (ascending_lt mapping hasc i j hlt hj)

/-- Adjacent inputs of an ascending table, indexed from the upper row. -/
theorem ascending_pred (mapping : List (α × α)) (hasc : ascending mapping)
    (i : Nat) (h1 : 1 ≤ i) (hi : i < mapping.length) :
    input mapping (i - 1) < input mapping i :=
  ascending_lt mapping hasc (i - 1) i (by omega) hi

/-- The chord of segment `i` takes the output of breakpoint `i - 1` at its
input. -/
theorem segment_left (mapping : List (α × α)) (i : Nat) :
    segment mapping i (input mapping (i - 1)) = output mapping (i - 1) := by
  simp [segment]

/-- The chord of segment `i` takes the output of breakpoint `i` at its input,
when the two inputs of the segment differ. -/
theorem segment_right (mapping : List (α × α)) (i : Nat)
    (hne : input mapping (i - 1) ≠ input mapping i) :
    segment mapping i (input mapping i) = output mapping i := by
  have hd : input mapping i - input mapping (i - 1) ≠ 0 := sub_ne_zero.mpr (Ne.symm hne)
  simp only [segment]
  rw [div_self hd]
  ring

/-- On the closed interval between breakpoints `i - 1` and `i` of an ascending
table, `segmented_linear` is the chord of segment `i` (at the left end point
the loop breaks one segment earlier, with the same value). -/
theorem segmented_linear_eq_segment (mapping : List (α × α))
    (hlen : 2 ≤ mapping.length) (hasc : ascending mapping)
    (i : Nat) (h1 : 1 ≤ i) (hi : i < mapping.length) (x : α)
    (hlo : input mapping (i - 1) ≤ x) (hhi : x ≤ input mapping i) :
    segmented_linear mapping x = segment mapping i x := by
  have h0 : ¬ x < input mapping 0 :=
    not_lt.mpr (le_trans (ascending_le mapping hasc 0 (i - 1) (by omega) (by omega)) hlo)
  have hn : ¬ x > input mapping (mapping.length - 1) :=
    not_lt.mpr (le_trans hhi (ascending_le mapping hasc i (mapping.length - 1)
      (by omega) (by omega)))
  simp only [segmented_linear, h0, hn, if_false]
  by_cases hcase : 2 ≤ i ∧ x = input mapping (i - 1)
  · obtain ⟨h2, hx⟩ := hcase
    subst hx
    rw [within_mapping_break mapping _ _ (i - 1) (by omega) le_rfl mapping.length 1
      (by omega) (by omega)
      (fun j _ hj => not_le.mpr (ascending_lt mapping hasc j (i - 1) hj (by omega)))]
    rw [segment_right mapping (i - 1)
      (ne_of_lt (ascending_pred mapping hasc (i - 1) (by omega) (by omega))),
      segment_left]
  · have hne : 2 ≤ i → x ≠ input mapping (i - 1) := fun h2 hx => hcase ⟨h2, hx⟩
    rw [within_mapping_break mapping x x i hi hhi mapping.length 1 h1 (by omega)]
    intro j hj1 hj
    have hlt : input mapping (i - 1) < x :=
      lt_of_le_of_ne hlo (Ne.symm (hne (by omega)))
    exact not_le.mpr (lt_of_le_of_lt
      (ascending_le mapping hasc j (i - 1) (by omega) (by omega)) hlt)

/-- At and below the first breakpoint of an ascending table,
`segmented_linear` is the chord of segment `1`. -/
theorem segmented_linear_eq_segment_below (mapping : List (α × α))
    (hlen : 2 ≤ mapping.length) (hasc : ascending mapping) (x : α)
    (hx : x ≤ input mapping 0) :
    segmented_linear mapping x = segment mapping 1 x := by
  rcases lt_or_eq_of_le hx with hlt | heq
  · have hd : input mapping 1 - input mapping 0 ≠ 0 :=
      sub_ne_zero.mpr (ne_of_gt (hasc 0 (by omega)))
    simp only [segmented_linear, hlt, if_true, segment, Nat.sub_self]
    field_simp
    ring
  · exact segmented_linear_eq_segment mapping hlen hasc 1 le_rfl (by omega) x
      (le_of_eq heq.symm) (le_trans hx (le_of_lt (hasc 0 (by omega))))

/-- At and above the last breakpoint of an ascending table,
`segmented_linear` is the chord of the last segment. -/
theorem segmented_linear_eq_segment_above (mapping : List (α × α))
    (hlen : 2 ≤ mapping.length) (hasc : ascending mapping) (x : α)
    (hx : input mapping (mapping.length - 1) ≤ x) :
    segmented_linear mapping x = segment mapping (mapping.length - 1) x := by
  have hpred := ascending_pred mapping hasc (mapping.length - 1) (by omega) (by omega)
  rcases lt_or_eq_of_le hx with hlt | heq
  · have hd : input mapping (mapping.length - 1) - input mapping (mapping.length - 1 - 1) ≠ 0 :=
      sub_ne_zero.mpr (ne_of_gt hpred)
    have h0 : ¬ x < input mapping 0 :=
      not_lt.mpr (le_trans (ascending_le mapping hasc 0 (mapping.length - 1)
        (by omega) (by omega)) hx)
    have hgt : x > input mapping (mapping.length - 1) := hlt
    simp only [segmented_linear, h0, hgt, if_true, if_false, segment]
    field_simp
    ring
  · exact segmented_linear_eq_segment mapping hlen hasc (mapping.length - 1) (by omega)
      (by omega) x (le_trans (le_of_lt hpred) hx) (le_of_eq heq.symm)

/-- A chord with increasing input and non-decreasing output is monotone. -/
theorem segment_monotone (mapping : List (α × α)) (i : Nat)
    (hin : input mapping (i - 1) < input mapping i)
    (hout : output mapping (i - 1) ≤ output mapping i) :
    Monotone (segment mapping i) := by
  intro x y hxy
  simp only [segment]
  have hd : 0 ≤ input mapping i - input mapping (i - 1) := le_of_lt (sub_pos.mpr hin)
  have ho : 0 ≤ output mapping i - output mapping (i - 1) := sub_nonneg.mpr hout
  exact add_le_add_left (mul_le_mul_of_nonneg_right
    (div_le_div_of_nonneg_right (sub_le_sub_right hxy _) hd) ho) _

/-- A chord with increasing input and non-increasing output is antitone. -/
theorem segment_antitone (mapping : List (α × α)) (i : Nat)
    (hin : input mapping (i - 1) < input mapping i)
    (hout : output mapping i ≤ output mapping (i - 1)) :
    Antitone (segment mapping i) := by
  intro x y hxy
  simp only [segment]
  have hd : 0 ≤ input mapping i - input mapping (i - 1) := le_of_lt (sub_pos.mpr hin)
  have ho : output mapping i - output mapping (i - 1) ≤ 0 := sub_nonpos.mpr hout
  exact add_le_add_left (mul_le_mul_of_nonpos_right
    (div_le_div_of_nonneg_right (sub_le_sub_right hxy _) hd) ho) _

/-- Non-decreasing outputs, indexed from the upper row. -/
theorem outputs_nondecreasing_pred (mapping : List (α × α))
    (hout : outputs_nondecreasing mapping) (i : Nat) (h1 : 1 ≤ i)
    (hi : i < mapping.length) : output mapping (i - 1) ≤ output mapping i := by
  have h := hout (i - 1) (by omega)
  rwa [Nat.sub_add_cancel h1] at h

/-- Non-increasing outputs, indexed from the upper row. -/
theorem outputs_nonincreasing_pred (mapping : List (α × α))
    (hout : outputs_nonincreasing mapping) (i : Nat) (h1 : 1 ≤ i)
    (hi : i < mapping.length) : output mapping i ≤ output mapping (i - 1) := by
  have h := hout (i - 1) (by omega)
  rwa [Nat.sub_add_cancel h1] at h

/-- With non-decreasing outputs, `segmented_linear` is monotone up to every
breakpoint. -/
theorem segmented_linear_monotoneOn_Iic (mapping : List (α × α))
    (hlen : 2 ≤ mapping.length) (hasc : ascending mapping)
    (hout : outputs_nondecreasing mapping) :
    ∀ j, j < mapping.length →
      MonotoneOn (segmented_linear mapping) (Set.Iic (input mapping j)) := by
  intro j
  induction j with
  | zero =>
    intro _
    exact ((segment_monotone mapping 1 (hasc 0 (by omega))
      (hout 0 (by omega))).monotoneOn _).congr
      (fun x hx => (segmented_linear_eq_segment_below mapping hlen hasc x hx).symm)
  | succ j ih =>
    intro hj
    have hle : input mapping j ≤ input mapping (j + 1) := le_of_lt (hasc j (by omega))
    have hseg : MonotoneOn (segmented_linear mapping)
        (Set.Icc (input mapping j) (input mapping (j + 1))) :=
      ((segment_monotone mapping (j + 1) (hasc j (by omega))
        (hout j (by omega))).monotoneOn _).congr
        (fun x hx => (segmented_linear_eq_segment mapping hlen hasc (j + 1) (by omega) hj x
          hx.1 hx.2).symm)
    rw [← Set.Iic_union_Icc_eq_Iic hle]
    exact MonotoneOn.union_right (ih (by omega)) hseg isGreatest_Iic (isLeast_Icc hle)

/-- With non-increasing outputs, `segmented_linear` is antitone up to every
breakpoint. -/
theorem segmented_linear_antitoneOn_Iic (mapping : List (α × α))
    (hlen : 2 ≤ mapping.length) (hasc : ascending mapping)
    (hout : outputs_nonincreasing mapping) :
    ∀ j, j < mapping.length →
      AntitoneOn (segmented_linear mapping) (Set.Iic (input mapping j)) := by
  intro j
  induction j with
  | zero =>
    intro _
    exact ((segment_antitone mapping 1 (hasc 0 (by omega))
      (hout 0 (by omega))).antitoneOn _).congr
      (fun x hx => (segmented_linear_eq_segment_below mapping hlen hasc x hx).symm)
  | succ j ih =>
    intro hj
    have hle : input mapping j ≤ input mapping (j + 1) := le_of_lt (hasc j (by omega))
    have hseg : AntitoneOn (segmented_linear mapping)
        (Set.Icc (input mapping j) (input mapping (j + 1))) :=
      ((segment_antitone mapping (j + 1) (hasc j (by omega))
        (hout j (by omega))).antitoneOn _).congr
        (fun x hx => (segmented_linear_eq_segment mapping hlen hasc (j + 1) (by omega) hj x
          hx.1 hx.2).symm)
    rw [← Set.Iic_union_Icc_eq_Iic hle]
    exact AntitoneOn.union_right (ih (by omega)) hseg isGreatest_Iic (isLeast_Icc hle)

/-! ### Continuity over the reals -/

/-- A function continuous on two closed sets is continuous on their union. -/
theorem continuousOn_union_closed {f : ℝ → ℝ} {s t : Set ℝ}
    (hs : IsClosed s) (ht : IsClosed t)
    (hfs : ContinuousOn f s) (hft : ContinuousOn f t) : ContinuousOn f (s ∪ t) := by
  intro x _
  apply ContinuousWithinAt.union
  · by_cases hx : x ∈ s
    · exact hfs x hx
    · exact continuousWithinAt_of_not_mem_closure (by rwa [hs.closure_eq])
  · by_cases hx : x ∈ t
    · exact hft x hx
    · exact continuousWithinAt_of_not_mem_closure (by rwa [ht.closure_eq])

/-- A chord is an affine function of `x`, hence continuous. -/
theorem segment_continuous (mapping : List (ℝ × ℝ)) (i : Nat) :
    Continuous (segment mapping i) := by
  unfold segment
  fun_prop

/-- The function `segmented_linear` is continuous up to every breakpoint. -/
theorem segmented_linear_continuousOn_Iic (mapping : List (ℝ × ℝ))
    (hlen : 2 ≤ mapping.length) (hasc : ascending mapping) :
    ∀ j, j < mapping.length →
      ContinuousOn (segmented_linear mapping) (Set.Iic (input mapping j)) := by
  intro j
  induction j with
  | zero =>
    intro _
    exact (segment_continuous mapping 1).continuousOn.congr
      (fun x hx => segmented_linear_eq_segment_below mapping hlen hasc x hx)
  | succ j ih =>
    intro hj
    have hle : input mapping j ≤ input mapping (j + 1) := le_of_lt (hasc j (by omega))
    have hseg : ContinuousOn (segmented_linear mapping)
        (Set.Icc (input mapping j) (input mapping (j + 1))) :=
      (segment_continuous mapping (j + 1)).continuousOn.congr
        (fun x hx => segmented_linear_eq_segment mapping hlen hasc (j + 1) (by omega) hj x
          hx.1 hx.2)
    rw [← Set.Iic_union_Icc_eq_Iic hle]
    exact continuousOn_union_closed isClosed_Iic isClosed_Icc (ih (by omega)) hseg

/-! ### The two-point fit over the reals -/

/-- Over the reals the two-point correlation coefficient is the quotient of
`(x2 - x1) * (y2 - y1) / 2` by its absolute value. -/
theorem correlation_coefficient_eq (x1 y1 x2 y2 : ℝ) :
    correlation_coefficient Real.sqrt x1 y1 x2 y2 =
      ((x2 - x1) * (y2 - y1) / 2) / |(x2 - x1) * (y2 - y1) / 2| := by
  have hnum : (x1 - (x1 + x2) / 2) * (y1 - (y1 + y2) / 2)
      + (x2 - (x1 + x2) / 2) * (y2 - (y1 + y2) / 2) = (x2 - x1) * (y2 - y1) / 2 := by
    ring
  have hx : 0 ≤ (x1 - (x1 + x2) / 2) ^ 2 + (x2 - (x1 + x2) / 2) ^ 2 := by positivity
  have hden : Real.sqrt ((x1 - (x1 + x2) / 2) ^ 2 + (x2 - (x1 + x2) / 2) ^ 2)
      * Real.sqrt ((y1 - (y1 + y2) / 2) ^ 2 + (y2 - (y1 + y2) / 2) ^ 2)
      = |(x2 - x1) * (y2 - y1) / 2| := by
    rw [← Real.sqrt_mul hx, ← Real.sqrt_sq_eq_abs]
    congr 1
    ring
  simp only [correlation_coefficient]
  rw [hnum, hden]

/-- For two points on an increasing line the correlation coefficient is `1`. -/
theorem correlation_coefficient_of_pos (x1 y1 x2 y2 : ℝ)
    (hpos : (x2 - x1) * (y2 - y1) > 0) :
    correlation_coefficient Real.sqrt x1 y1 x2 y2 = 1 := by
  have h : 0 < (x2 - x1) * (y2 - y1) / 2 := by positivity
  rw [correlation_coefficient_eq, abs_of_pos h, div_self (ne_of_gt h)]

/-- For two points on a decreasing line the correlation coefficient is `-1`. -/
theorem correlation_coefficient_of_neg (x1 y1 x2 y2 : ℝ)
    (hneg : (x2 - x1) * (y2 - y1) < 0) :
    correlation_coefficient Real.sqrt x1 y1 x2 y2 = -1 := by
  have h : (x2 - x1) * (y2 - y1) / 2 < 0 := by linarith
  rw [correlation_coefficient_eq, abs_of_neg h, div_neg, div_self (ne_of_lt h)]

/-- For two points on an increasing line `linear_fit` returns the two-point
slope and the matching intercept. -/
theorem linear_fit_of_pos (x1 y1 x2 y2 : ℝ) (hpos : (x2 - x1) * (y2 - y1) > 0) :
    linear_fit Real.sqrt x1 y1 x2 y2 =
      ((y2 - y1) / (x2 - x1), y1 - (y2 - y1) / (x2 - x1) * x1) := by
  simp only [linear_fit, correlation_coefficient_of_pos x1 y1 x2 y2 hpos, one_mul]

/-- For two points on a decreasing line `linear_fit` returns the negated
two-point slope. -/
theorem linear_fit_of_neg (x1 y1 x2 y2 : ℝ) (hneg : (x2 - x1) * (y2 - y1) < 0) :
    linear_fit Real.sqrt x1 y1 x2 y2 =
      (-((y2 - y1) / (x2 - x1)), y1 - -((y2 - y1) / (x2 - x1)) * x1) := by
  simp only [linear_fit, correlation_coefficient_of_neg x1 y1 x2 y2 hneg, neg_one_mul,
    neg_div]

/-! ### The checked embedding on well-formed tables -/

/-- A checked read of column 0 inside the table gives the input of the row. -/
theorem cell_rows_input (pairs : List (α × α)) (i : Int) (h0 : 0 ≤ i)
    (hi : i < pairs.length) :
    cell (rows pairs) i 0 = .ok (input pairs i.toNat) := by
  have hlt : i.toNat < pairs.length := by omega
  simp [cell, rows, input, h0, hi, List.getElem?_eq_getElem hlt, List.getD_eq_getElem _ _ hlt]

/-- A checked read of column 1 inside the table gives the output of the row. -/
theorem cell_rows_output (pairs : List (α × α)) (i : Int) (h0 : 0 ≤ i)
    (hi : i < pairs.length) :
    cell (rows pairs) i 1 = .ok (output pairs i.toNat) := by
  have hlt : i.toNat < pairs.length := by omega
  simp [cell, rows, output, h0, hi, List.getElem?_eq_getElem hlt, List.getD_eq_getElem _ _ hlt]

/-- Guarded division by a non-zero divisor is the division of the field. -/
theorem checked_div_of_ne (a b : α) (hb : b ≠ 0) : checked_div a b = .ok (a / b) := by
  simp [checked_div, hb]

/-- On a table of pairs with ascending inputs the checked loop, entered at an
index `i ≥ 1`, completes with the value of the loop of the total embedding. -/
theorem within_mapping_checked_rows (pairs : List (α × α)) (hasc : ascending pairs)
    (x res : α) :
    ∀ (fuel i : Nat), 1 ≤ i →
      within_mapping_checked (rows pairs) x res fuel i
        = .ok (within_mapping pairs x res fuel i) := by
  intro fuel
  induction fuel with
  | zero => intro i _; rfl
  | succ fuel ih =>
    intro i h1
    by_cases hi : i < pairs.length
    · have hlen : (rows pairs).length = pairs.length := by simp [rows]
      have hpred : ((i : Int) - 1).toNat = i - 1 := by omega
      have ha := cell_rows_input pairs ((i : Int) - 1) (by omega) (by omega)
      have hb := cell_rows_output pairs ((i : Int) - 1) (by omega) (by omega)
      have hc := cell_rows_input pairs (i : Int) (by omega) (by omega)
      have hd := cell_rows_output pairs (i : Int) (by omega) (by omega)
      rw [hpred] at ha hb
      rw [Int.toNat_ofNat] at hc hd
      have hne : input pairs i - input pairs (i - 1) ≠ 0 :=
        sub_ne_zero.mpr (ne_of_gt (ascending_pred pairs hasc i h1 hi))
      by_cases hx : x ≤ input pairs i
      · simp [within_mapping_checked, within_mapping, hlen, hi, ha, hb, hc, hd, hx,
          checked_div_of_ne _ _ hne, bind, Except.bind, pure, Except.pure]
      · simp [within_mapping_checked, within_mapping, hlen, hi, ha, hb, hc, hd, hx,
          bind, Except.bind, pure, Except.pure, ih (i + 1) (by omega)]
    · have hlen : (rows pairs).length = pairs.length := by simp [rows]
      simp [within_mapping_checked, within_mapping, hlen, hi, pure, Except.pure]

/-! ### The checked two-point fit -/

/-- The checked correlation coefficient faults exactly when its last divisor
is zero, and otherwise returns the value of the exact-arithmetic embedding. -/
theorem correlation_coefficient_checked_eq (sqrt : α → α) (x1 y1 x2 y2 : α) :
    correlation_coefficient_checked sqrt x1 y1 x2 y2 =
      if correlation_denominator sqrt x1 y1 x2 y2 = 0 then .error .zero_divisor
      else .ok (correlation_coefficient sqrt x1 y1 x2 y2) := by
  have h2 : (2 : α) ≠ 0 := two_ne_zero
  simp only [correlation_coefficient_checked, correlation_denominator,
    correlation_coefficient, checked_div, h2, if_false, bind, Except.bind]

/-- The checked fit faults exactly when the correlation divisor or `x2 - x1`
is zero, and otherwise returns the value of the exact-arithmetic embedding. -/
theorem linear_fit_checked_eq (sqrt : α → α) (x1 y1 x2 y2 : α) :
    linear_fit_checked sqrt x1 y1 x2 y2 =
      if correlation_denominator sqrt x1 y1 x2 y2 = 0 then .error .zero_divisor
      else if x2 - x1 = 0 then .error .zero_divisor
      else .ok (linear_fit sqrt x1 y1 x2 y2) := by
  simp only [linear_fit_checked, correlation_coefficient_checked_eq]
  by_cases hden : correlation_denominator sqrt x1 y1 x2 y2 = 0
  · simp [hden, bind, Except.bind]
  · by_cases hx : x2 - x1 = 0
    · simp [hden, hx, checked_div, bind, Except.bind]
    · simp [hden, hx, checked_div, linear_fit, bind, Except.bind, pure, Except.pure]

/-- Over the reals the correlation divisor is `|(x2 - x1) * (y2 - y1) / 2|`. -/
theorem correlation_denominator_eq (x1 y1 x2 y2 : ℝ) :
    correlation_denominator Real.sqrt x1 y1 x2 y2 = |(x2 - x1) * (y2 - y1) / 2| := by
  have hx : 0 ≤ (x1 - (x1 + x2) / 2) ^ 2 + (x2 - (x1 + x2) / 2) ^ 2 := by positivity
  simp only [correlation_denominator]
  rw [← Real.sqrt_mul hx, ← Real.sqrt_sq_eq_abs]
  congr 1
  ring

/-- Over the reals the correlation divisor vanishes exactly on a degenerate
pair of points. -/
theorem correlation_denominator_eq_zero_iff (x1 y1 x2 y2 : ℝ) :
    correlation_denominator Real.sqrt x1 y1 x2 y2 = 0 ↔ x1 = x2 ∨ y1 = y2 := by
  rw [correlation_denominator_eq, abs_eq_zero, div_eq_zero_iff, mul_eq_zero,
    sub_eq_zero, sub_eq_zero]
  constructor
  · rintro ((h | h) | h)
    · exact Or.inl h.symm
    · exact Or.inr h.symm
    · norm_num at h
  · rintro (h | h)
    · exact Or.inl (Or.inl h.symm)
    · exact Or.inl (Or.inr h.symm)

/-- Over the reals the checked fit faults exactly on a degenerate pair. -/
theorem linear_fit_checked_error_iff (x1 y1 x2 y2 : ℝ) :
    linear_fit_checked Real.sqrt x1 y1 x2 y2 = .error .zero_divisor ↔ x1 = x2 ∨ y1 = y2 := by
  rw [linear_fit_checked_eq]
  by_cases hden : correlation_denominator Real.sqrt x1 y1 x2 y2 = 0
  · simp only [hden, if_true, true_iff]
    exact (correlation_denominator_eq_zero_iff x1 y1 x2 y2).mp hden
  · have hnot : ¬ (x1 = x2 ∨ y1 = y2) :=
      fun h => hden ((correlation_denominator_eq_zero_iff x1 y1 x2 y2).mpr h)
    have hx : x2 - x1 ≠ 0 := sub_ne_zero.mpr (fun h => hnot (Or.inl h.symm))
    simp [hden, hx, hnot]

/-- A non-degenerate pair of real points is on an increasing or on a
decreasing line. -/
theorem product_pos_or_neg (x1 y1 x2 y2 : ℝ) (hx : x1 ≠ x2) (hy : y1 ≠ y2) :
    (x2 - x1) * (y2 - y1) > 0 ∨ (x2 - x1) * (y2 - y1) < 0 := by
  have hne : (x2 - x1) * (y2 - y1) ≠ 0 :=
    mul_ne_zero (sub_ne_zero.mpr (Ne.symm hx)) (sub_ne_zero.mpr (Ne.symm hy))
  rcases lt_or_gt_of_ne hne with h | h
  · exact Or.inr h
  · exact Or.inl h

/-! ### The selected segment -/

/-- In range, the loop selects the least index `i ≥ 1` with `x ≤ input i` and
`segmented_linear` is the chord of that segment. -/
theorem segmented_linear_select (mapping : List (α × α)) (x : α)
    (hlen : 2 ≤ mapping.length)
    (hlo : input mapping 0 ≤ x)
    (hhi : x ≤ input mapping (mapping.length - 1)) :
    ∃ i, 1 ≤ i ∧ i < mapping.length ∧ x ≤ input mapping i ∧
      (∀ j, 1 ≤ j → j < i → ¬ x ≤ input mapping j) ∧
      segmented_linear mapping x = segment mapping i x := by
  classical
  have hex : ∃ i, 1 ≤ i ∧ i < mapping.length ∧ x ≤ input mapping i :=
    ⟨mapping.length - 1, by omega, by omega, hhi⟩
  obtain ⟨h1, hk, hxk⟩ := Nat.find_spec hex
  have hmin : ∀ j, 1 ≤ j → j < Nat.find hex → ¬ x ≤ input mapping j :=
    fun j hj1 hjk hxj => Nat.find_min hex hjk ⟨hj1, by omega, hxj⟩
  refine ⟨Nat.find hex, h1, hk, hxk, hmin, ?_⟩
  have h0 : ¬ x < input mapping 0 := not_lt.mpr hlo
  have hn : ¬ x > input mapping (mapping.length - 1) := not_lt.mpr hhi
  simp only [segmented_linear, h0, hn, if_false]
  exact within_mapping_break mapping x x (Nat.find hex) hk hxk mapping.length 1 h1
    (by omega) hmin

/-- The selected segment brackets the query: its lower input is not above
`x`. -/
theorem selected_lower (mapping : List (α × α)) (x : α) (i : Nat) (h1 : 1 ≤ i)
    (hlo : input mapping 0 ≤ x)
    (hmin : ∀ j, 1 ≤ j → j < i → ¬ x ≤ input mapping j) :
    input mapping (i - 1) ≤ x := by
  rcases Nat.eq_or_lt_of_le h1 with h | h
  · rw [← h]
    exact hlo
  · exact le_of_lt (not_le.mp (hmin (i - 1) (by omega) (by omega)))

/-- A point `a + t * (b - a)` with `0 ≤ t ≤ 1` lies between `a` and `b`. -/
theorem between_of_fraction (a b t : α) (h0 : 0 ≤ t) (h1 : t ≤ 1) :
    min a b ≤ a + t * (b - a) ∧ a + t * (b - a) ≤ max a b := by
  rcases le_total a b with hab | hab
  · rw [min_eq_left hab, max_eq_right hab]
    have hd : 0 ≤ b - a := sub_nonneg.mpr hab
    constructor
    · nlinarith [mul_nonneg h0 hd]
    · nlinarith [mul_nonneg (sub_nonneg.mpr h1) hd]
  · rw [min_eq_right hab, max_eq_left hab]
    have hd : 0 ≤ a - b := sub_nonneg.mpr hab
    constructor
    · nlinarith [mul_nonneg (sub_nonneg.mpr h1) hd]
    · nlinarith [mul_nonneg h0 hd]

/-- On a table whose rows lie on the line `a * input + b`, every chord is that
line. -/
theorem segment_on_line (a b : α) (mapping : List (α × α))
    (hasc : ascending mapping)
    (hline : ∀ k, k < mapping.length → output mapping k = a * input mapping k + b)
    (i : Nat) (h1 : 1 ≤ i) (hi : i < mapping.length) (x : α) :
    segment mapping i x = a * x + b := by
  have hd : input mapping i - input mapping (i - 1) ≠ 0 :=
    sub_ne_zero.mpr (ne_of_gt (ascending_pred mapping hasc i h1 hi))
  simp only [segment]
  rw [hline (i - 1) (by omega), hline i hi]
  field_simp
  ring

/-! ## Claims C1 - C3: the three branches of `segmented_linear` -/

/-- C1. For a table with at least two rows and a query `x` between the first
and the last input, the loop of `segmented_linear` always breaks: there is a
least index `i ≥ 1` with `x ≤ table[i].input`, the loop returns the
interpolated value whatever the fallback `res` was, and the result is
`table[i-1].output + ((x - table[i-1].input) / (table[i].input -
table[i-1].input)) * (table[i].output - table[i-1].output)`. -/
theorem segmented_linear_within (mapping : List (α × α)) (x : α)
    (hlen : 2 ≤ mapping.length)
    (hlo : input mapping 0 ≤ x)
    (hhi : x ≤ input mapping (mapping.length - 1)) :
    ∃ i, 1 ≤ i ∧ i < mapping.length ∧ x ≤ input mapping i ∧
      (∀ j, 1 ≤ j → j < i → ¬ x ≤ input mapping j) ∧
      (∀ res, within_mapping mapping x res mapping.length 1 =
        segmented_linear mapping x) ∧
      segmented_linear mapping x =
        output mapping (i - 1)
          + ((x - input mapping (i - 1)) / (input mapping i - input mapping (i - 1)))
            * (output mapping i - output mapping (i - 1)) := by
  classical
  have hex : ∃ i, 1 ≤ i ∧ i < mapping.length ∧ x ≤ input mapping i :=
    ⟨mapping.length - 1, by omega, by omega, hhi⟩
  obtain ⟨h1, hk, hxk⟩ := Nat.find_spec hex
  have hmin : ∀ j, 1 ≤ j → j < Nat.find hex → ¬ x ≤ input mapping j := by
    intro j hj1 hjk hxj
    exact Nat.find_min hex hjk ⟨hj1, by omega, hxj⟩
  have hloop : ∀ res, within_mapping mapping x res mapping.length 1
      = segment mapping (Nat.find hex) x := fun res =>
    within_mapping_break mapping x res (Nat.find hex) hk hxk mapping.length 1 h1
      (by omega) hmin
  have hval : segmented_linear mapping x = segment mapping (Nat.find hex) x := by
    have h0 : ¬ x < input mapping 0 := not_lt.mpr hlo
    have hn : ¬ x > input mapping (mapping.length - 1) := not_lt.mpr hhi
    simp only [segmented_linear, h0, hn, if_false]
    exact hloop x
  refine ⟨Nat.find hex, h1, hk, hxk, hmin, ?_, ?_⟩
  · intro res
    rw [hloop res, hval]
  · rw [hval, segment]

/-- C1, the example of the specification: the table `[(0,0),(10,100),(20,150)]`
queried at `15` selects the second segment and returns `125`. -/
theorem segmented_linear_within_witness :
    segmented_linear [((0 : ℚ), (0 : ℚ)), (10, 100), (20, 150)] 15 = 125 ∧
    ∃ i, 1 ≤ i ∧ i < 3 ∧ (15 : ℚ) ≤ input [((0 : ℚ), (0 : ℚ)), (10, 100), (20, 150)] i ∧
      (∀ j, 1 ≤ j → j < i →
        ¬ (15 : ℚ) ≤ input [((0 : ℚ), (0 : ℚ)), (10, 100), (20, 150)] j) ∧
      (∀ res, within_mapping [((0 : ℚ), (0 : ℚ)), (10, 100), (20, 150)] 15 res 3 1 =
        segmented_linear [((0 : ℚ), (0 : ℚ)), (10, 100), (20, 150)] 15) ∧
      segmented_linear [((0 : ℚ), (0 : ℚ)), (10, 100), (20, 150)] 15 =
        output [((0 : ℚ), (0 : ℚ)), (10, 100), (20, 150)] (i - 1)
          + ((15 - input [((0 : ℚ), (0 : ℚ)), (10, 100), (20, 150)] (i - 1))
              / (input [((0 : ℚ), (0 : ℚ)), (10, 100), (20, 150)] i
                  - input [((0 : ℚ), (0 : ℚ)), (10, 100), (20, 150)] (i - 1)))
            * (output [((0 : ℚ), (0 : ℚ)), (10, 100), (20, 150)] i
                - output [((0 : ℚ), (0 : ℚ)), (10, 100), (20, 150)] (i - 1)) :=
  ⟨by norm_num [segmented_linear, within_mapping, input, output],
   segmented_linear_within [((0 : ℚ), (0 : ℚ)), (10, 100), (20, 150)] 15
    (by decide) (by norm_num [input]) (by norm_num [input])⟩

/-- C2. For a table with at least two rows whose first two inputs differ and
a query `x` below the first input, `segmented_linear` is the line through
breakpoints 0 and 1 evaluated at `x`. -/
theorem segmented_linear_below (mapping : List (α × α)) (x : α)
    (_hlen : 2 ≤ mapping.length)
    (hne : input mapping 0 ≠ input mapping 1)
    (hx : x < input mapping 0) :
    segmented_linear mapping x =
      output mapping 0
        + (x - input mapping 0) * (output mapping 1 - output mapping 0)
          / (input mapping 1 - input mapping 0) := by
  have hd : input mapping 1 - input mapping 0 ≠ 0 := sub_ne_zero.mpr (Ne.symm hne)
  simp only [segmented_linear, hx, if_true]
  field_simp
  ring

/-- C2, the example of the specification: the table `[(0,0),(10,100)]` queried
at `-5` returns `-50`. -/
theorem segmented_linear_below_witness :
    segmented_linear [((0 : ℚ), (0 : ℚ)), (10, 100)] (-5) = -50 := by
  have h := segmented_linear_below [((0 : ℚ), (0 : ℚ)), (10, 100)] (-5)
    (by decide) (by norm_num [input]) (by norm_num [input])
  rw [h]
  norm_num [input, output]

/-- C3 as stated fails on a table that is not sorted: with the rows
`(10,0), (5,1), (0,100)` the query `7` is above the last input but below the
first, so the code takes the "Less than mapping" branch and returns `3/5`,
while the line through the last two breakpoints gives `-193/5`. -/
theorem segmented_linear_above_unsorted :
    ¬ ∀ (mapping : List (ℚ × ℚ)) (x : ℚ), 2 ≤ mapping.length →
      input mapping (mapping.length - 2) ≠ input mapping (mapping.length - 1) →
      x > input mapping (mapping.length - 1) →
      segmented_linear mapping x =
        output mapping (mapping.length - 1)
          + (x - input mapping (mapping.length - 1))
            * (output mapping (mapping.length - 1) - output mapping (mapping.length - 2))
            / (input mapping (mapping.length - 1) - input mapping (mapping.length - 2)) := by
  intro h
  have h7 := h [(10, 0), (5, 1), (0, 100)] 7 (by decide)
    (by norm_num [input]) (by norm_num [input])
  norm_num [segmented_linear, input, output] at h7

/-- C3 (amended). For a table with `n ≥ 2` rows whose last two inputs differ
and a query `x` above the last input and not below the first input (as is the
case for every `x` above the last input of an ascending table),
`segmented_linear` is the line through the last two breakpoints evaluated at
`x`. -/
theorem segmented_linear_above (mapping : List (α × α)) (x : α)
    (hlen : 2 ≤ mapping.length)
    (hne : input mapping (mapping.length - 2) ≠ input mapping (mapping.length - 1))
    (hfirst : input mapping 0 ≤ x)
    (hx : x > input mapping (mapping.length - 1)) :
    segmented_linear mapping x =
      output mapping (mapping.length - 1)
        + (x - input mapping (mapping.length - 1))
          * (output mapping (mapping.length - 1) - output mapping (mapping.length - 2))
          / (input mapping (mapping.length - 1) - input mapping (mapping.length - 2)) := by
  have hd : input mapping (mapping.length - 1) - input mapping (mapping.length - 2) ≠ 0 :=
    sub_ne_zero.mpr (Ne.symm hne)
  have h0 : ¬ x < input mapping 0 := not_lt.mpr hfirst
  have hidx : mapping.length - 1 - 1 = mapping.length - 2 := by omega
  simp only [segmented_linear, h0, hx, if_true, if_false, hidx]
  field_simp

/-- C3, the example of the specification: the table `[(0,0),(10,100)]` queried
at `15` returns `150`. -/
theorem segmented_linear_above_witness :
    segmented_linear [((0 : ℚ), (0 : ℚ)), (10, 100)] 15 = 150 := by
  have h := segmented_linear_above [((0 : ℚ), (0 : ℚ)), (10, 100)] 15
    (by decide) (by norm_num [input]) (by norm_num [input]) (by norm_num [input])
  rw [h]
  norm_num [input, output]

/-! ## Claims C4 - C6: the two-point fit and the humidity correction -/

/-- C4 (the code at a failing input). For the two points `(0, 0)` and
`(1, -1)`, which lie on the line of slope `-1`, `linear_fit` returns slope `1`
and intercept `0`: the slope is not `(y2 - y1) / (x2 - x1)` and the returned
line misses the second point. -/
theorem linear_fit_decreasing_line :
    linear_fit Real.sqrt 0 0 1 (-1) = (1, 0) ∧
    (linear_fit Real.sqrt 0 0 1 (-1)).1 ≠ ((-1) - 0) / (1 - 0) ∧
    (linear_fit Real.sqrt 0 0 1 (-1)).1 * 1 + (linear_fit Real.sqrt 0 0 1 (-1)).2 ≠ -1 := by
  have h : linear_fit Real.sqrt 0 0 1 (-1) = (1, 0) := by
    rw [linear_fit_of_neg 0 0 1 (-1) (by norm_num)]
    norm_num
  rw [h]
  norm_num

/-- C5. When the measured and the expected reference values agree at `temp`
(`measured1 temp = expected1 temp`, `measured2 temp = expected2 temp`) and the
two measured values differ, the fitted line is the identity (slope `1`,
intercept `0`) and `calibrated_humidity` returns `hum` unchanged. -/
theorem calibrated_humidity_identity (temp hum : ℝ)
    (expected1 expected2 measured1 measured2 : ℝ → ℝ)
    (h1 : measured1 temp = expected1 temp)
    (h2 : measured2 temp = expected2 temp)
    (hne : measured1 temp ≠ measured2 temp) :
    linear_fit Real.sqrt (measured1 temp) (expected1 temp) (measured2 temp) (expected2 temp)
      = (1, 0) ∧
    calibrated_humidity Real.sqrt temp hum expected1 expected2 measured1 measured2 = hum := by
  have hd : measured2 temp - measured1 temp ≠ 0 := sub_ne_zero.mpr (Ne.symm hne)
  have hpos : (measured2 temp - measured1 temp) * (expected2 temp - expected1 temp) > 0 := by
    rw [← h1, ← h2]
    exact mul_self_pos.mpr hd
  have hfit : linear_fit Real.sqrt (measured1 temp) (expected1 temp) (measured2 temp)
      (expected2 temp) = (1, 0) := by
    rw [linear_fit_of_pos _ _ _ _ hpos, ← h1, ← h2, div_self hd]
    norm_num
  refine ⟨hfit, ?_⟩
  simp only [calibrated_humidity, hfit]
  ring

/-- C5 with both reference curves constant, `30` and `70`: the fit is the
identity and the reading `55` is returned unchanged. -/
theorem calibrated_humidity_identity_witness :
    linear_fit Real.sqrt 30 30 70 70 = (1, 0) ∧
    calibrated_humidity Real.sqrt 20 55 (fun _ => 30) (fun _ => 70) (fun _ => 30)
      (fun _ => 70) = 55 :=
  calibrated_humidity_identity 20 55 (fun _ => 30) (fun _ => 70) (fun _ => 30)
    (fun _ => 70) rfl rfl (by norm_num)

/-- C6 (the code at a failing input). With the reference curves
`measured1 = 0`, `expected1 = 0`, `measured2 = 1`, `expected2 = -1`, the
reading `measured2 temp = 1` is mapped to `1`, not to `expected2 temp = -1`,
while the reading `measured1 temp = 0` is mapped to `expected1 temp = 0`. -/
theorem calibrated_humidity_decreasing_reference :
    calibrated_humidity Real.sqrt 0 ((fun _ => (1 : ℝ)) (0 : ℝ))
      (fun _ => 0) (fun _ => -1) (fun _ => 0) (fun _ => 1) = 1 ∧
    calibrated_humidity Real.sqrt 0 ((fun _ => (1 : ℝ)) (0 : ℝ))
      (fun _ => 0) (fun _ => -1) (fun _ => 0) (fun _ => 1) ≠ (fun _ => (-1 : ℝ)) (0 : ℝ) ∧
    calibrated_humidity Real.sqrt 0 ((fun _ => (0 : ℝ)) (0 : ℝ))
      (fun _ => 0) (fun _ => -1) (fun _ => 0) (fun _ => 1) = (fun _ => (0 : ℝ)) (0 : ℝ) := by
  have h : linear_fit Real.sqrt 0 0 1 (-1) = (1, 0) := by
    rw [linear_fit_of_neg 0 0 1 (-1) (by norm_num)]
    norm_num
  simp only [calibrated_humidity, h]
  norm_num

/-! ## Claims C7 - C8: breakpoints and monotonicity -/

/-- C7. For a table with at least two rows and strictly ascending inputs,
querying exactly at the input of any row `k` (the first and the last row
included) returns the output of that row. -/
theorem segmented_linear_at_breakpoint (mapping : List (α × α))
    (hlen : 2 ≤ mapping.length) (hasc : ascending mapping)
    (k : Nat) (hk : k < mapping.length) :
    segmented_linear mapping (input mapping k) = output mapping k := by
  rcases Nat.eq_zero_or_pos k with rfl | hpos
  · rw [segmented_linear_eq_segment_below mapping hlen hasc _ le_rfl]
    exact segment_left mapping 1
  · rw [segmented_linear_eq_segment mapping hlen hasc k hpos hk _
      (le_of_lt (ascending_pred mapping hasc k hpos hk)) le_rfl]
    exact segment_right mapping k (ne_of_lt (ascending_pred mapping hasc k hpos hk))

/-- C7, the example of the specification: the table `[(0,0),(10,100),(20,150)]`
queried at the breakpoint `10` returns exactly `100`. -/
theorem segmented_linear_at_breakpoint_witness :
    segmented_linear [((0 : ℚ), (0 : ℚ)), (10, 100), (20, 150)] 10 = 100 := by
  have h := segmented_linear_at_breakpoint [((0 : ℚ), (0 : ℚ)), (10, 100), (20, 150)]
    (by decide) (by decide) 1 (by decide)
  simpa [input, output] using h

/-- C8. For a table with at least two rows and strictly ascending inputs:
if the outputs are non-decreasing, `segmented_linear` is non-decreasing in `x`
over the whole line, and if the outputs are non-increasing it is
non-increasing. -/
theorem segmented_linear_monotone (mapping : List (α × α))
    (hlen : 2 ≤ mapping.length) (hasc : ascending mapping) :
    (outputs_nondecreasing mapping →
      ∀ x x', x ≤ x' → segmented_linear mapping x ≤ segmented_linear mapping x') ∧
    (outputs_nonincreasing mapping →
      ∀ x x', x ≤ x' → segmented_linear mapping x' ≤ segmented_linear mapping x) := by
  have hpred := ascending_pred mapping hasc (mapping.length - 1) (by omega) (by omega)
  constructor
  · intro hout
    have hup : MonotoneOn (segmented_linear mapping)
        (Set.Ici (input mapping (mapping.length - 1))) :=
      ((segment_monotone mapping (mapping.length - 1) hpred
        (outputs_nondecreasing_pred mapping hout _ (by omega) (by omega))).monotoneOn _).congr
        (fun x hx => (segmented_linear_eq_segment_above mapping hlen hasc x hx).symm)
    have hmono : Monotone (segmented_linear mapping) :=
      MonotoneOn.Iic_union_Ici
        (segmented_linear_monotoneOn_Iic mapping hlen hasc hout _ (by omega)) hup
    exact fun x x' h => hmono h
  · intro hout
    have hup : AntitoneOn (segmented_linear mapping)
        (Set.Ici (input mapping (mapping.length - 1))) :=
      ((segment_antitone mapping (mapping.length - 1) hpred
        (outputs_nonincreasing_pred mapping hout _ (by omega) (by omega))).antitoneOn _).congr
        (fun x hx => (segmented_linear_eq_segment_above mapping hlen hasc x hx).symm)
    have hanti : Antitone (segmented_linear mapping) :=
      AntitoneOn.Iic_union_Ici
        (segmented_linear_antitoneOn_Iic mapping hlen hasc hout _ (by omega)) hup
    exact fun x x' h => hanti h

/-- C8 on the table `[(0,0),(10,100),(20,150)]` (outputs non-decreasing) and on
`[(0,150),(10,100),(20,0)]` (outputs non-increasing). -/
theorem segmented_linear_monotone_witness :
    (∀ x x' : ℚ, x ≤ x' →
      segmented_linear [((0 : ℚ), (0 : ℚ)), (10, 100), (20, 150)] x
        ≤ segmented_linear [((0 : ℚ), (0 : ℚ)), (10, 100), (20, 150)] x') ∧
    (∀ x x' : ℚ, x ≤ x' →
      segmented_linear [((0 : ℚ), (150 : ℚ)), (10, 100), (20, 0)] x'
        ≤ segmented_linear [((0 : ℚ), (150 : ℚ)), (10, 100), (20, 0)] x) :=
  ⟨(segmented_linear_monotone [((0 : ℚ), (0 : ℚ)), (10, 100), (20, 150)]
      (by decide) (by decide)).1 (by decide),
   (segmented_linear_monotone [((0 : ℚ), (150 : ℚ)), (10, 100), (20, 0)]
      (by decide) (by decide)).2 (by decide)⟩

/-! ## Claim C9: continuity -/

/-- C9. Over the reals, for a table with at least two rows and strictly
ascending inputs, `x ↦ segmented_linear table x` is continuous on the whole
real line. -/
theorem segmented_linear_continuous (mapping : List (ℝ × ℝ))
    (hlen : 2 ≤ mapping.length) (hasc : ascending mapping) :
    Continuous (fun x : ℝ => segmented_linear mapping x) := by
  have hlow := segmented_linear_continuousOn_Iic mapping hlen hasc
    (mapping.length - 1) (by omega)
  have hup : ContinuousOn (segmented_linear mapping)
      (Set.Ici (input mapping (mapping.length - 1))) :=
    (segment_continuous mapping (mapping.length - 1)).continuousOn.congr
      (fun x hx => segmented_linear_eq_segment_above mapping hlen hasc x hx)
  have hall := continuousOn_union_closed isClosed_Iic isClosed_Ici hlow hup
  rw [Set.Iic_union_Ici] at hall
  exact continuous_iff_continuousOn_univ.mpr hall

/-- C9 on the table `[(0,0),(10,100),(20,150)]`. -/
theorem segmented_linear_continuous_witness :
    Continuous (fun x : ℝ =>
      segmented_linear [((0 : ℝ), (0 : ℝ)), (10, 100), (20, 150)] x) :=
  segmented_linear_continuous [((0 : ℝ), (0 : ℝ)), (10, 100), (20, 150)]
    (by decide)
    (by
      intro i hi
      have hi2 : i < 2 := hi
      interval_cases i <;> norm_num [input])

/-! ## Claim C10: the fit of an increasing line -/

/-- C10. For two points on an increasing line (`x1 ≠ x2` and
`(x2 - x1) * (y2 - y1) > 0`), `linear_fit` returns exactly the slope
`(y2 - y1) / (x2 - x1)` and the intercept `y1 - slope * x1`. -/
theorem linear_fit_increasing (x1 y1 x2 y2 : ℝ) (_hne : x1 ≠ x2)
    (hpos : (x2 - x1) * (y2 - y1) > 0) :
    linear_fit Real.sqrt x1 y1 x2 y2 =
      ((y2 - y1) / (x2 - x1), y1 - (y2 - y1) / (x2 - x1) * x1) :=
  linear_fit_of_pos x1 y1 x2 y2 hpos

/-- C10, the examples of the specification: `linear_fit(0,0,10,10) = (1, 0)`
and `linear_fit(0,5,10,15) = (1, 5)`. -/
theorem linear_fit_increasing_witness :
    linear_fit Real.sqrt 0 0 10 10 = (1, 0) ∧ linear_fit Real.sqrt 0 5 10 15 = (1, 5) := by
  constructor
  · rw [linear_fit_increasing 0 0 10 10 (by norm_num) (by norm_num)]
    norm_num
  · rw [linear_fit_increasing 0 5 10 15 (by norm_num) (by norm_num)]
    norm_num

/-! ## Claims C13 - C14: bounds and divisors of `segmented_linear` -/

/-- C13. With checked reads and guarded division, on every table that meets
the contract (at least two rows, each row an `{input, output}` pair, inputs
strictly ascending) and for every `x`, `segmented_linear` completes without a
fault, with the value of the exact-arithmetic embedding: every row index it
reads is inside the table and every divisor `in_b - in_a` is non-zero. -/
theorem segmented_linear_checked_completes (pairs : List (α × α)) (x : α)
    (hlen : 2 ≤ pairs.length) (hasc : ascending pairs) :
    segmented_linear_checked (rows pairs) x = .ok (segmented_linear pairs x) := by
  have hrows : (rows pairs).length = pairs.length := by simp [rows]
  have h00 := cell_rows_input pairs 0 (by omega) (by omega)
  have h01 := cell_rows_output pairs 0 (by omega) (by omega)
  have h10 := cell_rows_input pairs 1 (by omega) (by omega)
  have h11 := cell_rows_output pairs 1 (by omega) (by omega)
  have hl0 := cell_rows_input pairs ((pairs.length : Int) - 1) (by omega) (by omega)
  have hl1 := cell_rows_output pairs ((pairs.length : Int) - 1) (by omega) (by omega)
  have hp0 := cell_rows_input pairs ((pairs.length : Int) - 1 - 1) (by omega) (by omega)
  have hp1 := cell_rows_output pairs ((pairs.length : Int) - 1 - 1) (by omega) (by omega)
  have e1 : ((pairs.length : Int) - 1).toNat = pairs.length - 1 := by omega
  have e2 : ((pairs.length : Int) - 1 - 1).toNat = pairs.length - 1 - 1 := by omega
  have e0 : (0 : Int).toNat = 0 := rfl
  have e3 : (1 : Int).toNat = 1 := rfl
  rw [e0] at h00 h01
  rw [e3] at h10 h11
  rw [e1] at hl0 hl1
  rw [e2] at hp0 hp1
  have hd1 : input pairs 1 - input pairs 0 ≠ 0 :=
    sub_ne_zero.mpr (ne_of_gt (hasc 0 (by omega)))
  have hd2 : input pairs (pairs.length - 1) - input pairs (pairs.length - 1 - 1) ≠ 0 :=
    sub_ne_zero.mpr (ne_of_gt (ascending_pred pairs hasc (pairs.length - 1)
      (by omega) (by omega)))
  by_cases hlt : x < input pairs 0
  · simp [segmented_linear_checked, segmented_linear, hrows, h00, h01, h10, h11, hlt,
      checked_div_of_ne _ _ hd1, bind, Except.bind, pure, Except.pure]
  · by_cases hgt : x > input pairs (pairs.length - 1)
    · simp [segmented_linear_checked, segmented_linear, hrows, h00, hl0, hl1, hp0, hp1,
        hlt, hgt, checked_div_of_ne _ _ hd2, bind, Except.bind, pure, Except.pure]
    · simp [segmented_linear_checked, segmented_linear, hrows, h00, hl0, hlt, hgt,
        within_mapping_checked_rows pairs hasc x x pairs.length 1 le_rfl,
        bind, Except.bind, pure, Except.pure]

/-- C13 on the table `[(0,0),(10,100),(20,150)]`, queried below, inside and
above its range. -/
theorem segmented_linear_checked_completes_witness :
    segmented_linear_checked (rows [((0 : ℚ), (0 : ℚ)), (10, 100), (20, 150)]) (-5)
      = .ok (segmented_linear [((0 : ℚ), (0 : ℚ)), (10, 100), (20, 150)] (-5)) ∧
    segmented_linear_checked (rows [((0 : ℚ), (0 : ℚ)), (10, 100), (20, 150)]) 15
      = .ok (segmented_linear [((0 : ℚ), (0 : ℚ)), (10, 100), (20, 150)] 15) ∧
    segmented_linear_checked (rows [((0 : ℚ), (0 : ℚ)), (10, 100), (20, 150)]) 25
      = .ok (segmented_linear [((0 : ℚ), (0 : ℚ)), (10, 100), (20, 150)] 25) :=
  ⟨segmented_linear_checked_completes _ (-5) (by decide) (by decide),
   segmented_linear_checked_completes _ 15 (by decide) (by decide),
   segmented_linear_checked_completes _ 25 (by decide) (by decide)⟩

/-- C14 as stated fails on a one-row table queried exactly at its input: on
`[(5, 7)]` the query `5` is neither below nor above the row, the loop
`i = 1; i < 1` does not run, and the code returns `5` without reading outside
the table. -/
theorem segmented_linear_checked_single_row :
    ¬ ∀ (pairs : List (ℚ × ℚ)) (x : ℚ), pairs.length < 2 →
      segmented_linear_checked (rows pairs) x = .error .out_of_bounds := by
  intro h
  have h5 := h [(5, 7)] 5 (by decide)
  norm_num [segmented_linear_checked, within_mapping_checked, cell, rows, bind,
    Except.bind, pure, Except.pure] at h5
  exact Except.noConfusion h5

/-- C14 (amended). With checked reads, for every type of numbers and every
comparison on it (no order law is assumed), on a table with fewer than two
rows: if the first cell cannot be read (no row, or an empty row), or if the
query is below or above the input of the only row, `segmented_linear` reads
outside the table; if neither `x < input` nor `x > input` holds (the query is
that input, or does not compare, as a NaN), it returns `x` without a fault. -/
theorem segmented_linear_checked_short {β : Type} [LT β] [∀ a b : β, Decidable (a < b)]
    [LE β] [∀ a b : β, Decidable (a ≤ b)]
    [Add β] [Sub β] [Mul β] [Div β] [Zero β] [DecidableEq β]
    (mapping : List (List β)) (x : β) (hlen : mapping.length < 2) :
    (mapping.length = 0 →
      segmented_linear_checked mapping x = .error .out_of_bounds) ∧
    (∀ e, cell mapping 0 0 = .error e →
      segmented_linear_checked mapping x = .error .out_of_bounds) ∧
    (∀ v, cell mapping 0 0 = .ok v → x < v ∨ x > v →
      segmented_linear_checked mapping x = .error .out_of_bounds) ∧
    (∀ v, cell mapping 0 0 = .ok v → ¬ x < v → ¬ x > v →
      mapping.length = 1 ∧ segmented_linear_checked mapping x = .ok x) := by
  match mapping, hlen with
  | [], _ =>
    have hc : cell ([] : List (List β)) 0 0 = .error .out_of_bounds := by simp [cell]
    refine ⟨fun _ => ?_, fun _ _ => ?_, fun v hv => ?_, fun v hv => ?_⟩
    · simp [segmented_linear_checked, hc, bind, Except.bind]
    · simp [segmented_linear_checked, hc, bind, Except.bind]
    · rw [hc] at hv
      exact Except.noConfusion hv
    · rw [hc] at hv
      exact Except.noConfusion hv
  | [row], _ =>
    have hm1 : ∀ j, cell [row] (-1) j = .error .out_of_bounds := fun j => by
      simp [cell]
    have h1 : ∀ j, cell [row] 1 j = .error .out_of_bounds := fun j => by
      simp [cell]
    cases h0 : row[0]? with
    | none =>
      have hc : cell [row] 0 0 = .error .out_of_bounds := by simp [cell, h0]
      refine ⟨fun h => ?_, fun _ _ => ?_, fun v hv => ?_, fun v hv => ?_⟩
      · simp at h
      · simp [segmented_linear_checked, hc, bind, Except.bind]
      · rw [hc] at hv
        exact Except.noConfusion hv
      · rw [hc] at hv
        exact Except.noConfusion hv
    | some w =>
      have hc : cell [row] 0 0 = .ok w := by simp [cell, h0]
      have hsame : ∀ v, cell [row] 0 0 = .ok v → v = w := fun v hv => by
        rw [hc] at hv
        exact (Except.ok.inj hv).symm
      refine ⟨fun h => ?_, fun e he => ?_, fun v hv hcmp => ?_, fun v hv hnlt hngt => ?_⟩
      · simp at h
      · rw [hc] at he
        exact Except.noConfusion he
      · have hvw := hsame v hv
        subst hvw
        by_cases hlt : x < v
        · cases h01 : row[1]? with
          | none =>
            have hc1 : cell [row] 0 1 = .error .out_of_bounds := by simp [cell, h01]
            simp [segmented_linear_checked, hc, hc1, hlt, bind, Except.bind]
          | some u =>
            have hc1 : cell [row] 0 1 = .ok u := by simp [cell, h01]
            simp [segmented_linear_checked, hc, hc1, h1, hlt, bind, Except.bind]
        · have hgt : x > v := hcmp.resolve_left hlt
          simp [segmented_linear_checked, hc, hm1, hgt, hlt, bind, Except.bind]
      · have hvw := hsame v hv
        subst hvw
        refine ⟨rfl, ?_⟩
        simp [segmented_linear_checked, within_mapping_checked, hc, hnlt, hngt, bind,
          Except.bind, pure, Except.pure]

/-- C14 (amended) on the empty table, and on the one-row table `[(5, 7)]`
queried at `6`, at `5` and at a NaN. -/
theorem segmented_linear_checked_short_witness :
    segmented_linear_checked ([] : List (List ℚ)) 3 = .error .out_of_bounds ∧
    segmented_linear_checked (rows [((5 : ℚ), (7 : ℚ))]) 6 = .error .out_of_bounds ∧
    segmented_linear_checked (rows [((5 : ℚ), (7 : ℚ))]) 5 = .ok 5 ∧
    segmented_linear_checked [[NumberOrNaN.number 5, NumberOrNaN.number 7]] NumberOrNaN.nan
      = .ok NumberOrNaN.nan :=
  ⟨(segmented_linear_checked_short ([] : List (List ℚ)) 3 (by decide)).1 rfl,
   (segmented_linear_checked_short (rows [((5 : ℚ), (7 : ℚ))]) 6 (by decide)).2.2.1 5
     (by norm_num [cell, rows]) (Or.inr (by norm_num)),
   ((segmented_linear_checked_short (rows [((5 : ℚ), (7 : ℚ))]) 5 (by decide)).2.2.2 5
     (by norm_num [cell, rows]) (by norm_num) (by norm_num)).2,
   ((segmented_linear_checked_short [[NumberOrNaN.number 5, NumberOrNaN.number 7]]
      NumberOrNaN.nan (by decide)).2.2.2 (NumberOrNaN.number 5) (by simp [cell])
      (fun h => h) (fun h => h)).2⟩

/-! ## Claims C11, C15, C17: the correlation coefficient as a sign -/

/-- C11. Over the reals, for `x1 ≠ x2` and `y1 ≠ y2` the two-point
correlation coefficient is `+1` or `-1`: it is `+1` when
`(x2 - x1) * (y2 - y1) > 0` and `-1` when `(x2 - x1) * (y2 - y1) < 0`. -/
theorem correlation_coefficient_sign (x1 y1 x2 y2 : ℝ) (hx : x1 ≠ x2) (hy : y1 ≠ y2) :
    (correlation_coefficient Real.sqrt x1 y1 x2 y2 = 1 ∨
      correlation_coefficient Real.sqrt x1 y1 x2 y2 = -1) ∧
    ((x2 - x1) * (y2 - y1) > 0 → correlation_coefficient Real.sqrt x1 y1 x2 y2 = 1) ∧
    ((x2 - x1) * (y2 - y1) < 0 → correlation_coefficient Real.sqrt x1 y1 x2 y2 = -1) := by
  refine ⟨?_, correlation_coefficient_of_pos x1 y1 x2 y2,
    correlation_coefficient_of_neg x1 y1 x2 y2⟩
  rcases product_pos_or_neg x1 y1 x2 y2 hx hy with h | h
  · exact Or.inl (correlation_coefficient_of_pos x1 y1 x2 y2 h)
  · exact Or.inr (correlation_coefficient_of_neg x1 y1 x2 y2 h)

/-- C11 on the increasing pair `(0,0), (10,10)`. -/
theorem correlation_coefficient_sign_witness :
    correlation_coefficient Real.sqrt 0 0 10 10 = 1 :=
  (correlation_coefficient_sign 0 0 10 10 (by norm_num) (by norm_num)).2.1 (by norm_num)

/-- C15 as stated fails on a decreasing pair: the points `(0,0)` and `(1,-1)`
are not degenerate and their correlation coefficient is `-1`, not `1`. -/
theorem correlation_coefficient_decreasing_pair :
    (0 : ℝ) ≠ 1 ∧ (0 : ℝ) ≠ -1 ∧
    correlation_coefficient Real.sqrt 0 0 1 (-1) = -1 ∧
    correlation_coefficient Real.sqrt 0 0 1 (-1) ≠ 1 := by
  have h : correlation_coefficient Real.sqrt 0 0 1 (-1) = -1 :=
    correlation_coefficient_of_neg 0 0 1 (-1) (by norm_num)
  rw [h]
  norm_num

/-- C15 (amended). Over the reals, for a non-degenerate pair of points the
correlation coefficient is exactly `1` if and only if
`(x2 - x1) * (y2 - y1) > 0`, and exactly `-1` if and only if
`(x2 - x1) * (y2 - y1) < 0`. -/
theorem correlation_coefficient_eq_one_iff (x1 y1 x2 y2 : ℝ) (hx : x1 ≠ x2)
    (hy : y1 ≠ y2) :
    (correlation_coefficient Real.sqrt x1 y1 x2 y2 = 1 ↔ (x2 - x1) * (y2 - y1) > 0) ∧
    (correlation_coefficient Real.sqrt x1 y1 x2 y2 = -1 ↔ (x2 - x1) * (y2 - y1) < 0) := by
  rcases product_pos_or_neg x1 y1 x2 y2 hx hy with h | h
  · have hc := correlation_coefficient_of_pos x1 y1 x2 y2 h
    have hnot : ¬ (x2 - x1) * (y2 - y1) < 0 := not_lt.mpr (le_of_lt h)
    rw [hc]
    exact ⟨⟨fun _ => h, fun _ => rfl⟩, ⟨fun h1 => by norm_num at h1, fun h1 => absurd h1 hnot⟩⟩
  · have hc := correlation_coefficient_of_neg x1 y1 x2 y2 h
    have hnot : ¬ (x2 - x1) * (y2 - y1) > 0 := not_lt.mpr (le_of_lt h)
    rw [hc]
    exact ⟨⟨fun h1 => by norm_num at h1, fun h1 => absurd h1 hnot⟩, ⟨fun _ => h, fun _ => rfl⟩⟩

/-- C15 (amended) on the pairs `(0,5), (10,15)` and `(0,0), (1,-1)`. -/
theorem correlation_coefficient_eq_one_iff_witness :
    correlation_coefficient Real.sqrt 0 5 10 15 = 1 ∧
    correlation_coefficient Real.sqrt 0 0 1 (-1) = -1 :=
  ⟨(correlation_coefficient_eq_one_iff 0 5 10 15 (by norm_num) (by norm_num)).1.mpr
      (by norm_num),
   (correlation_coefficient_eq_one_iff 0 0 1 (-1) (by norm_num) (by norm_num)).2.mpr
      (by norm_num)⟩

/-- C17. Over the reals, for `x1 ≠ x2` and `y1 ≠ y2` the slope returned by
`linear_fit` is `|(y2 - y1) / (x2 - x1)|`, which is strictly positive, the
intercept is `y1 - slope * x1`, the returned line passes through `(x1, y1)`,
and it passes through `(x2, y2)` exactly when `(x2 - x1) * (y2 - y1) > 0`. -/
theorem linear_fit_abs_slope (x1 y1 x2 y2 : ℝ) (hx : x1 ≠ x2) (hy : y1 ≠ y2) :
    (linear_fit Real.sqrt x1 y1 x2 y2).1 = |(y2 - y1) / (x2 - x1)| ∧
    0 < (linear_fit Real.sqrt x1 y1 x2 y2).1 ∧
    (linear_fit Real.sqrt x1 y1 x2 y2).2 = y1 - (linear_fit Real.sqrt x1 y1 x2 y2).1 * x1 ∧
    (linear_fit Real.sqrt x1 y1 x2 y2).1 * x1 + (linear_fit Real.sqrt x1 y1 x2 y2).2 = y1 ∧
    ((linear_fit Real.sqrt x1 y1 x2 y2).1 * x2 + (linear_fit Real.sqrt x1 y1 x2 y2).2 = y2
      ↔ (x2 - x1) * (y2 - y1) > 0) := by
  have hdx : x2 - x1 ≠ 0 := sub_ne_zero.mpr (Ne.symm hx)
  have hdy : y2 - y1 ≠ 0 := sub_ne_zero.mpr (Ne.symm hy)
  have hquot : (y2 - y1) / (x2 - x1) = (x2 - x1) * (y2 - y1) / (x2 - x1) ^ 2 := by
    field_simp
    ring
  have hsq : 0 < (x2 - x1) ^ 2 := by positivity
  rcases product_pos_or_neg x1 y1 x2 y2 hx hy with h | h
  · have hpos : 0 < (y2 - y1) / (x2 - x1) := by
      rw [hquot]
      exact div_pos h hsq
    rw [linear_fit_of_pos x1 y1 x2 y2 h]
    refine ⟨(abs_of_pos hpos).symm, hpos, rfl, by ring, ?_⟩
    constructor
    · exact fun _ => h
    · intro _
      show (y2 - y1) / (x2 - x1) * x2 + (y1 - (y2 - y1) / (x2 - x1) * x1) = y2
      field_simp
      ring
  · have hneg : (y2 - y1) / (x2 - x1) < 0 := by
      rw [hquot]
      exact div_neg_of_neg_of_pos h hsq
    rw [linear_fit_of_neg x1 y1 x2 y2 h]
    refine ⟨(abs_of_neg hneg).symm, neg_pos.mpr hneg, rfl, by ring, ?_⟩
    constructor
    · intro hline
      exfalso
      have hline2 : -((y2 - y1) / (x2 - x1)) * x2
          + (y1 - -((y2 - y1) / (x2 - x1)) * x1) = y2 := hline
      have hmul : (y2 - y1) / (x2 - x1) * (x2 - x1) = y2 - y1 := div_mul_cancel₀ _ hdx
      have hzero : y2 - y1 = 0 := by linarith
      exact hdy hzero
    · intro hpos
      exact absurd hpos (not_lt.mpr (le_of_lt h))

/-- C17 on the decreasing pair `(0,0), (1,-1)`: the slope is `|-1| = 1`. -/
theorem linear_fit_abs_slope_witness :
    (linear_fit Real.sqrt 0 0 1 (-1)).1 = |((-1 : ℝ) - 0) / (1 - 0)| ∧
    0 < (linear_fit Real.sqrt 0 0 1 (-1)).1 :=
  ⟨(linear_fit_abs_slope 0 0 1 (-1) (by norm_num) (by norm_num)).1,
   (linear_fit_abs_slope 0 0 1 (-1) (by norm_num) (by norm_num)).2.1⟩

/-! ## Claims C12, C16: when the fit divides by zero

Both theorems are over the reals.  Rounding, overflow and underflow of the
`float` operations of the code are outside this development. -/

/-- The statement of C12 read in exact real arithmetic.  With guarded
division, `linear_fit` fails if and only if `x1 = x2` or `y1 = y2`: equal `x`
make both the correlation divisor and `x2 - x1` zero, equal `y` make the
correlation divisor zero, and when `x1 ≠ x2` and `y1 ≠ y2` both divisors are
non-zero and the slope and intercept of the exact-arithmetic embedding are
returned.  This says nothing about the rounded `float` arithmetic of the
code, in which the stored correlation divisor of a non-degenerate pair can
underflow to zero. -/
theorem linear_fit_checked_fails_iff (x1 y1 x2 y2 : ℝ) :
    (linear_fit_checked Real.sqrt x1 y1 x2 y2 = .error .zero_divisor
      ↔ x1 = x2 ∨ y1 = y2) ∧
    (x1 = x2 → correlation_denominator Real.sqrt x1 y1 x2 y2 = 0 ∧ x2 - x1 = 0) ∧
    (y1 = y2 → correlation_denominator Real.sqrt x1 y1 x2 y2 = 0) ∧
    (x1 ≠ x2 → y1 ≠ y2 →
      correlation_denominator Real.sqrt x1 y1 x2 y2 ≠ 0 ∧ x2 - x1 ≠ 0 ∧
      linear_fit_checked Real.sqrt x1 y1 x2 y2
        = .ok (linear_fit Real.sqrt x1 y1 x2 y2)) := by
  refine ⟨linear_fit_checked_error_iff x1 y1 x2 y2, ?_, ?_, ?_⟩
  · intro h
    exact ⟨(correlation_denominator_eq_zero_iff x1 y1 x2 y2).mpr (Or.inl h),
      sub_eq_zero.mpr h.symm⟩
  · intro h
    exact (correlation_denominator_eq_zero_iff x1 y1 x2 y2).mpr (Or.inr h)
  · intro hx hy
    have hden : correlation_denominator Real.sqrt x1 y1 x2 y2 ≠ 0 := fun h =>
      ((correlation_denominator_eq_zero_iff x1 y1 x2 y2).mp h).elim hx hy
    have hdx : x2 - x1 ≠ 0 := sub_ne_zero.mpr (Ne.symm hx)
    refine ⟨hden, hdx, ?_⟩
    rw [linear_fit_checked_eq]
    simp [hden, hdx]

/-- C16 as stated fails on a horizontal pair: for `(0,5)` and `(1,5)` the
checked `linear_fit` divides by the zero correlation divisor although
`x1 ≠ x2`, while the direct slope formula returns `0`. -/
theorem linear_fit_checked_horizontal_pair :
    linear_fit_checked Real.sqrt 0 5 1 5 = .error .zero_divisor ∧
    (0 : ℝ) ≠ 1 ∧
    direct_slope_checked (0 : ℝ) 5 1 5 = .ok 0 := by
  refine ⟨(linear_fit_checked_error_iff 0 5 1 5).mpr (Or.inr rfl), by norm_num, ?_⟩
  norm_num [direct_slope_checked, checked_div]

/-- C16 (amended). In exact real arithmetic with guarded division,
`linear_fit` hits a zero divisor if and only if `x1 = x2` or `y1 = y2`: it
breaks wherever the direct slope formula breaks (which is exactly when
`x1 = x2`), and it also breaks when `y1 = y2`, where the direct formula
returns the slope `0` as soon as `x1 ≠ x2`. -/
theorem linear_fit_checked_breaks (x1 y1 x2 y2 : ℝ) :
    (linear_fit_checked Real.sqrt x1 y1 x2 y2 = .error .zero_divisor ↔
      x1 = x2 ∨ y1 = y2) ∧
    (direct_slope_checked x1 y1 x2 y2 = .error .zero_divisor ↔ x1 = x2) ∧
    (direct_slope_checked x1 y1 x2 y2 = .error .zero_divisor →
      linear_fit_checked Real.sqrt x1 y1 x2 y2 = .error .zero_divisor) ∧
    (y1 = y2 → linear_fit_checked Real.sqrt x1 y1 x2 y2 = .error .zero_divisor) ∧
    (y1 = y2 → x1 ≠ x2 → direct_slope_checked x1 y1 x2 y2 = .ok 0) := by
  have hdirect : direct_slope_checked x1 y1 x2 y2 = .error .zero_divisor ↔ x1 = x2 := by
    by_cases hx : x2 - x1 = 0
    · simp [direct_slope_checked, checked_div, hx, (sub_eq_zero.mp hx).symm]
    · have hne : ¬ x1 = x2 := fun h => hx (sub_eq_zero.mpr h.symm)
      simp [direct_slope_checked, checked_div, hx, hne]
  refine ⟨linear_fit_checked_error_iff x1 y1 x2 y2, hdirect,
    fun h => (linear_fit_checked_error_iff x1 y1 x2 y2).mpr (Or.inl (hdirect.mp h)),
    fun h => (linear_fit_checked_error_iff x1 y1 x2 y2).mpr (Or.inr h), ?_⟩
  intro hy hx
  have hdx : x2 - x1 ≠ 0 := sub_ne_zero.mpr (Ne.symm hx)
  simp [direct_slope_checked, checked_div, hdx, hy]

/-! ## Claims C18 - C19: no overshoot, and straight lines -/

/-- C18. For a table with at least two rows and strictly ascending inputs and
a query `x` between the first and the last input, the selected segment
`(i - 1, i)` brackets `x`, the interpolation fraction lies in `[0, 1]`, the
result lies between the smaller and the larger output of the segment, and
hence between any lower and upper bound of all outputs of the table. -/
theorem segmented_linear_no_overshoot (mapping : List (α × α)) (x : α)
    (hlen : 2 ≤ mapping.length) (hasc : ascending mapping)
    (hlo : input mapping 0 ≤ x)
    (hhi : x ≤ input mapping (mapping.length - 1)) :
    ∃ i, 1 ≤ i ∧ i < mapping.length ∧ x ≤ input mapping i ∧
      (∀ j, 1 ≤ j → j < i → ¬ x ≤ input mapping j) ∧
      input mapping (i - 1) ≤ x ∧
      0 ≤ (x - input mapping (i - 1)) / (input mapping i - input mapping (i - 1)) ∧
      (x - input mapping (i - 1)) / (input mapping i - input mapping (i - 1)) ≤ 1 ∧
      min (output mapping (i - 1)) (output mapping i) ≤ segmented_linear mapping x ∧
      segmented_linear mapping x ≤ max (output mapping (i - 1)) (output mapping i) ∧
      (∀ lo hi, (∀ k, k < mapping.length → lo ≤ output mapping k ∧ output mapping k ≤ hi) →
        lo ≤ segmented_linear mapping x ∧ segmented_linear mapping x ≤ hi) := by
  obtain ⟨i, h1, hi, hxi, hmin, hval⟩ := segmented_linear_select mapping x hlen hlo hhi
  have hlow : input mapping (i - 1) ≤ x := selected_lower mapping x i h1 hlo hmin
  have hd : 0 < input mapping i - input mapping (i - 1) :=
    sub_pos.mpr (ascending_pred mapping hasc i h1 hi)
  have hf0 : 0 ≤ (x - input mapping (i - 1)) / (input mapping i - input mapping (i - 1)) :=
    div_nonneg (sub_nonneg.mpr hlow) (le_of_lt hd)
  have hf1 : (x - input mapping (i - 1)) / (input mapping i - input mapping (i - 1)) ≤ 1 :=
    (div_le_one hd).mpr (sub_le_sub_right hxi _)
  have hbetween := between_of_fraction (output mapping (i - 1)) (output mapping i) _ hf0 hf1
  have hseg : segmented_linear mapping x =
      output mapping (i - 1)
        + (x - input mapping (i - 1)) / (input mapping i - input mapping (i - 1))
          * (output mapping i - output mapping (i - 1)) := by
    rw [hval, segment]
  refine ⟨i, h1, hi, hxi, hmin, hlow, hf0, hf1, ?_, ?_, ?_⟩
  · rw [hseg]
    exact hbetween.1
  · rw [hseg]
    exact hbetween.2
  · intro lo hi' hbound
    have ha := hbound (i - 1) (by omega)
    have hb := hbound i hi
    rw [hseg]
    exact ⟨le_trans (le_min ha.1 hb.1) hbetween.1,
      le_trans hbetween.2 (max_le ha.2 hb.2)⟩

/-- C18 on the table `[(0,0),(10,100),(20,150)]` queried at `15`: the result
lies between `0` and `150`. -/
theorem segmented_linear_no_overshoot_witness :
    (0 : ℚ) ≤ segmented_linear [((0 : ℚ), (0 : ℚ)), (10, 100), (20, 150)] 15 ∧
    segmented_linear [((0 : ℚ), (0 : ℚ)), (10, 100), (20, 150)] 15 ≤ 150 := by
  obtain ⟨i, _, _, _, _, _, _, _, _, _, hall⟩ :=
    segmented_linear_no_overshoot [((0 : ℚ), (0 : ℚ)), (10, 100), (20, 150)] 15
      (by decide) (by decide) (by norm_num [input]) (by norm_num [input])
  refine hall 0 150 ?_
  intro k hk
  have hk3 : k < 3 := hk
  interval_cases k <;> norm_num [output]

/-- C19. For a table with at least two rows and strictly ascending inputs
whose every row satisfies `output = a * input + b`, `segmented_linear` returns
`a * x + b` for every `x`, below, inside and above the range of the table. -/
theorem segmented_linear_on_line (a b : α) (mapping : List (α × α))
    (hlen : 2 ≤ mapping.length) (hasc : ascending mapping)
    (hline : ∀ k, k < mapping.length → output mapping k = a * input mapping k + b)
    (x : α) :
    segmented_linear mapping x = a * x + b := by
  rcases le_total x (input mapping 0) with hlo | hlo
  · rw [segmented_linear_eq_segment_below mapping hlen hasc x hlo]
    exact segment_on_line a b mapping hasc hline 1 le_rfl (by omega) x
  · rcases le_total (input mapping (mapping.length - 1)) x with hhi | hhi
    · rw [segmented_linear_eq_segment_above mapping hlen hasc x hhi]
      exact segment_on_line a b mapping hasc hline _ (by omega) (by omega) x
    · obtain ⟨i, h1, hi, _, _, hval⟩ := segmented_linear_select mapping x hlen hlo hhi
      rw [hval]
      exact segment_on_line a b mapping hasc hline i h1 hi x

/-- C19 on the identity table `[(0,0),(10,10),(20,20)]`: the queries `-5`,
`15` and `25` are returned unchanged. -/
theorem segmented_linear_on_line_witness :
    segmented_linear [((0 : ℚ), (0 : ℚ)), (10, 10), (20, 20)] (-5) = 1 * (-5) + 0 ∧
    segmented_linear [((0 : ℚ), (0 : ℚ)), (10, 10), (20, 20)] 15 = 1 * 15 + 0 ∧
    segmented_linear [((0 : ℚ), (0 : ℚ)), (10, 10), (20, 20)] 25 = 1 * 25 + 0 := by
  have hline : ∀ k, k < [((0 : ℚ), (0 : ℚ)), (10, 10), (20, 20)].length →
      output [((0 : ℚ), (0 : ℚ)), (10, 10), (20, 20)] k
        = 1 * input [((0 : ℚ), (0 : ℚ)), (10, 10), (20, 20)] k + 0 := by
    intro k hk
    have hk3 : k < 3 := hk
    interval_cases k <;> norm_num [input, output]
  exact ⟨segmented_linear_on_line 1 0 _ (by decide) (by decide) hline (-5),
    segmented_linear_on_line 1 0 _ (by decide) (by decide) hline 15,
    segmented_linear_on_line 1 0 _ (by decide) (by decide) hline 25⟩

end Calibration
